import Mathlib

/-!
Verification of a family of singly-linked list variants:
  * `First`  — ExclusiveList: exclusively owned list of machine integers
               (hand-rolled two-case link tag), push/pop at the head,
               iterative teardown (`src/linked_list_take2/src/first.rs`,
               `src/linked_list/src/first.rs`).
  * `Second` — GenericBorrowList: the same exclusive-ownership list
               generalized to an arbitrary element type, with peek /
               peek_mut and three iterators
               (`src/linked_list_take2/src/second.rs`,
               `src/linked_list/src/second.rs`).
  * `Third`  — PersistentSharedList: persistent list with structural
               sharing via reference counting
               (`src/linked_list_take2/src/third.rs`); its purely
               observable behaviour is embedded in `Third`, and the
               reference-count/ownership behaviour (Rc clone, Drop with
               try_unwrap) in the explicit-heap model `ThirdRc`.

Rust `Box<Node>` is an owning pointer; in the value-semantics embedding it
is elided, so `Link<T> = Option<Box<Node<T>>>` becomes `Option (Node T)`.
Methods taking `&mut self` become functions `State → Result × State`.
`Vals` abbreviates Lean's own list type, used for specification values
(the embedded structures shadow the name `List` inside their namespaces).
-/

set_option autoImplicit false

/-- Lean's list type, for specification-level sequences of values. -/
abbrev Vals (α : Type) : Type := List α

/-- A generic driver that repeatedly calls an iterator's `next` method
(modelled as `state → (returned item, updated state)`) and collects the
yielded items until `next` returns `none` or the fuel runs out. -/
def collect {σ T : Type} (step : σ → Option T × σ) : Nat → σ → Vals T
  | 0, _ => []
  | fuel + 1, s =>
    match step s with
    | (none, _) => []
    | (some e, s2) => e :: collect step fuel s2

namespace First

mutual

/-- Rust `enum Link { Empty, More(Box<Node>) }` from first.rs. -/
inductive Link : Type where
  | empty : Link
  | more : Node → Link

/-- Rust `struct Node { elem: i32, next: Link }` from first.rs. -/
inductive Node : Type where
  | mk : Int → Link → Node

end

/-- Field accessor for `Node.elem`. -/
def Node.elem : Node → Int
  | .mk e _ => e

/-- Field accessor for `Node.next`. -/
def Node.next : Node → Link
  | .mk _ n => n

/-- Rust `pub struct List { head: Link }` from first.rs. -/
structure List : Type where
  head : Link

/-- Rust `List::new`: `List { head: Link::Empty }`. -/
def List.new : List :=
  { head := Link.empty }

/-- Rust `List::push`: the new node's `next` is `mem::replace(&mut self.head,
Link::Empty)` (the previous head chain, moved intact), and the head is then
set to own the new node. -/
def List.push (self : List) (elem : Int) : List :=
  { head := Link.more (Node.mk elem self.head) }

/-- Rust `List::pop`: `mem::replace` the head with `Empty`; on `Empty` return
`None`, on `More(node)` set the head to `node.next` and return
`Some(node.elem)`. The returned pair is (return value, updated list). -/
def List.pop (self : List) : Option Int × List :=
  match self.head with
  | Link.empty => (none, { head := Link.empty })
  | Link.more node => (some node.elem, { head := node.next })

mutual

/-- The element sequence reached by traversing a link chain (the list's
contents front-to-back; first.rs derives length only by such traversal). -/
def Link.toSeq : Link → Vals Int
  | .empty => []
  | .more n => Node.seqFrom n

/-- The element sequence starting at a node. -/
def Node.seqFrom : Node → Vals Int
  | .mk e next => e :: Link.toSeq next

end

/-- Derived list length (by traversal; not cached). -/
def List.len (self : List) : Nat :=
  self.head.toSeq.length

/-- Rust `Drop for List` from first.rs, as the trace of released nodes: the loop
`while let Link::More(mut boxed_node) = cur_link` detaches the current head
node, neutralizes its outgoing link with
`mem::replace(&mut boxed_node.next, Link::Empty)`, and releases it; the
trace records each released node in release order (each with its `next`
already set to `Empty`). -/
def dropTrace : Link → Vals Node
  | Link.empty => []
  | Link.more (Node.mk e next) => Node.mk e Link.empty :: dropTrace next

/-- Rust `Drop for List`: `self.head` is replaced by `Empty` and the chain is
released iteratively; result is (released-node trace, final list state). -/
def List.drop (self : List) : Vals Node × List :=
  (dropTrace self.head, { head := Link.empty })

/-- Push every value of `vals`, in order, onto `self`. -/
def List.pushAll (self : List) (vals : Vals Int) : List :=
  vals.foldl List.push self

/-- Pop `n` times, collecting the `n` results in order. -/
def List.popN : Nat → List → Vals (Option Int) × List
  | 0, l => ([], l)
  | n + 1, l =>
    let (r, l2) := l.pop
    let (rs, l3) := List.popN n l2
    (r :: rs, l3)

end First

namespace Second

/-- Rust `struct Node<T> { elem: T, next: Link<T> }` from second.rs, with
`Link<T> = Option<Box<Node<T>>>` (the owning `Box` elided). -/
inductive Node (T : Type) where
  | mk : T → Option (Node T) → Node T

/-- Rust `type Link<T> = Option<Box<Node<T>>>` from second.rs. -/
abbrev Link (T : Type) : Type := Option (Node T)

variable {T : Type}

/-- Field accessor for `Node.elem`. -/
def Node.elem : Node T → T
  | .mk e _ => e

/-- Field accessor for `Node.next`. -/
def Node.next : Node T → Link T
  | .mk _ n => n

/-- Rust `pub struct List<T> { head: Link<T> }` from second.rs. -/
structure List (T : Type) : Type where
  head : Link T

/-- Rust `List::new`: `List { head: None }`. -/
def List.new : List T :=
  { head := none }

/-- Rust `List::push`: the new node's `next` is `self.head.take()` (the previous
head chain, moved intact), and the head is then set to `Some(new_node)`. -/
def List.push (self : List T) (elem : T) : List T :=
  { head := some (Node.mk elem self.head) }

/-- Rust `List::pop`: `self.head.take().map(|node| { self.head = node.next;
node.elem })`. The returned pair is (return value, updated list). -/
def List.pop (self : List T) : Option T × List T :=
  match self.head with
  | none => (none, { head := none })
  | some node => (some node.elem, { head := node.next })

/-- Rust `List::peek`: `self.head.as_ref().map(|node| &node.elem)` (a read-only
view of the front element). -/
def List.peek (self : List T) : Option T :=
  self.head.map Node.elem

/-- Rust `List::peek_mut`, read side: `self.head.as_mut().map(|node| &mut
node.elem)` observes the same front element as `peek`. -/
def List.peekMut (self : List T) : Option T :=
  self.head.map Node.elem

/-- Writing `v` through the mutable reference returned by `peek_mut`
(models `*self.peek_mut().unwrap() = v`); when `peek_mut` returns `None`
there is no reference to write through and the list is unchanged. -/
def List.writePeekMut (self : List T) (v : T) : List T :=
  match self.head with
  | none => self
  | some node => { head := some (Node.mk v node.next) }

/-- The element sequence reached by traversing a link chain (the list's
contents front-to-back). -/
def linkToSeq : Link T → Vals T
  | none => []
  | some (.mk e next) => e :: linkToSeq next

/-- The list's contents, front-to-back. -/
def List.toSeq (self : List T) : Vals T :=
  linkToSeq self.head

/-- Derived list length (by traversal; not cached). -/
def List.len (self : List T) : Nat :=
  self.toSeq.length

/-- Rust `Drop for List<T>` from second.rs, as the trace of released nodes: the
loop `while let Some(mut boxed_node) = cur_link` detaches the current head
node, neutralizes its outgoing link with `boxed_node.next.take()`, and
releases it; the trace records each released node in release order (each
with its `next` already set to `None`). -/
def dropTrace : Link T → Vals (Node T)
  | none => []
  | some (.mk e next) => Node.mk e none :: dropTrace next

/-- Rust `Drop for List<T>`: `self.head.take()` empties the list and the chain
is released iteratively; result is (released-node trace, final state). -/
def List.drop (self : List T) : Vals (Node T) × List T :=
  (dropTrace self.head, { head := none })

/-- Push every value of `vals`, in order, onto `self`. -/
def List.pushAll (self : List T) (vals : Vals T) : List T :=
  vals.foldl List.push self

/-- Pop `n` times, collecting the `n` results in order. -/
def List.popN : Nat → List T → Vals (Option T) × List T
  | 0, l => ([], l)
  | n + 1, l =>
    let (r, l2) := l.pop
    let (rs, l3) := List.popN n l2
    (r :: rs, l3)

/-- Rust `pub struct IntoIter<T>(List<T>)` from second.rs (tuple struct). -/
structure IntoIter (T : Type) : Type where
  inner : List T

/-- Rust `List::into_iter`: consumes the list. -/
def List.intoIter (self : List T) : IntoIter T :=
  { inner := self }

/-- Rust `Iterator::next` for `IntoIter`: `self.0.pop()`. -/
def IntoIter.step (self : IntoIter T) : Option T × IntoIter T :=
  let (r, l) := self.inner.pop
  (r, { inner := l })

/-- Rust `Option::as_deref` on a link: a shared view of the boxed node. -/
def Link.asDeref (l : Link T) : Option (Node T) :=
  l

/-- Rust `pub struct Iter<'a, T> { next: Option<&'a Node<T>> }` from second.rs. -/
structure Iter (T : Type) : Type where
  next : Option (Node T)

/-- Rust `List::iter`: `Iter { next: self.head.as_deref() }` (borrows the list;
the list itself is not consumed or modified). -/
def List.iter (self : List T) : Iter T :=
  { next := self.head.asDeref }

/-- Rust `Iterator::next` for `Iter`: `self.next.map(|node| { self.next =
node.next.as_deref(); &node.elem })`. -/
def Iter.step (self : Iter T) : Option T × Iter T :=
  match self.next with
  | none => (none, self)
  | some node => (some node.elem, { next := node.next.asDeref })

/-- Rust `pub struct IterMut<'a, T> { next: Option<&'a mut Node<T>> }`. -/
structure IterMut (T : Type) : Type where
  next : Option (Node T)

/-- Rust `List::iter_mut`: `IterMut { next: self.head.as_deref_mut() }`. -/
def List.iterMut (self : List T) : IterMut T :=
  { next := self.head }

/-- Rust `Iterator::next` for `IterMut`: `self.next.take().map(|node| {
self.next = node.next.as_deref_mut(); &mut node.elem })`. -/
def IterMut.step (self : IterMut T) : Option T × IterMut T :=
  match self.next with
  | none => (none, { next := none })
  | some node => (some node.elem, { next := node.next })

end Second

namespace Third

/-- Rust `struct Node<T> { elem: T, next: Link<T> }` from third.rs, with
`Link<T> = Option<Rc<Node<T>>>` (the shared handle `Rc` elided; the
reference-count behaviour itself is modelled separately in `ThirdRc`). -/
inductive Node (T : Type) where
  | mk : T → Option (Node T) → Node T

/-- Rust `type Link<T> = Option<Rc<Node<T>>>` from third.rs. -/
abbrev Link (T : Type) : Type := Option (Node T)

variable {T : Type}

/-- Field accessor for `Node.elem`. -/
def Node.elem : Node T → T
  | .mk e _ => e

/-- Field accessor for `Node.next`. -/
def Node.next : Node T → Link T
  | .mk _ n => n

/-- Rust `pub struct List<T> { head: Link<T> }` from third.rs. -/
structure List (T : Type) : Type where
  head : Link T

/-- Rust `List::new`: `List { head: None }`. -/
def List.new : List T :=
  { head := none }

/-- Rust `List::prepend`: a new list whose head is a fresh node holding `elem`,
whose `next` is `self.head.clone()` (a shared handle to the original head;
`self` is only read). -/
def List.prepend (self : List T) (elem : T) : List T :=
  { head := some (Node.mk elem self.head) }

/-- Rust `List::tail`: `List { head: self.head.as_ref().and_then(|node|
node.next.clone()) }`. -/
def List.tail (self : List T) : List T :=
  { head := self.head.bind Node.next }

/-- Rust `List::head`: `self.head.as_ref().map(|node| &node.elem)`. -/
def List.head? (self : List T) : Option T :=
  self.head.map Node.elem

/-- The element sequence reached by traversing a link chain (the list's
contents front-to-back). -/
def linkToSeq : Link T → Vals T
  | none => []
  | some (.mk e next) => e :: linkToSeq next

/-- The list's contents, front-to-back. -/
def List.toSeq (self : List T) : Vals T :=
  linkToSeq self.head

/-- Rust `Option::as_deref` on a link: a shared view of the node behind `Rc`. -/
def Link.asDeref (l : Link T) : Option (Node T) :=
  l

/-- Rust `pub struct Iter<'a, T> { next: Option<&'a Node<T>> }` from third.rs. -/
structure Iter (T : Type) : Type where
  next : Option (Node T)

/-- Rust `List::iter`: `Iter { next: self.head.as_deref() }` (borrows the list;
the list itself is not consumed or modified). -/
def List.iter (self : List T) : Iter T :=
  { next := self.head.asDeref }

/-- Rust `Iterator::next` for third.rs `Iter`: `self.next.map(|node| { self.next
= node.next.as_deref(); &node.elem })`. -/
def Iter.step (self : Iter T) : Option T × Iter T :=
  match self.next with
  | none => (none, self)
  | some node => (some node.elem, { next := node.next.asDeref })

/-- One step of the "repeatedly take `head()` then `tail()`" observation of
a persistent list: yields `self.head?` and continues with `self.tail`. -/
def headTailStep (self : List T) : Option T × List T :=
  (self.head?, self.tail)

end Third

namespace ThirdRc

/-!
Explicit-heap model of third.rs for the reference-counting claims:
`Rc<Node<T>>` becomes a `Nat` address into a heap of nodes, each node
carrying its strong reference count `rc`. `Rc::clone` increments the
count of the pointed-to node; `Drop for List` walks the chain with
`Rc::try_unwrap`, which succeeds exactly when the count is 1.
-/

/-- A heap-resident `Node<T>` with its strong reference count. -/
structure RNode (T : Type) where
  elem : T
  next : Option Nat
  rc : Nat

/-- The node heap: partial map from addresses to nodes. -/
abbrev Heap (T : Type) : Type := Nat → Option (RNode T)

variable {T : Type}

/-- Heap update at a single address. -/
def upd (H : Heap T) (a : Nat) (v : Option (RNode T)) : Heap T :=
  fun x => if x = a then v else H x

/-- Rust `Link::clone` (`self.head.clone()` in prepend/tail): cloning a shared
handle to address `a` increments that node's strong count; cloning the
empty link does nothing. -/
def cloneAt (H : Heap T) (l : Option Nat) : Heap T :=
  match l with
  | none => H
  | some a =>
    match H a with
    | none => H
    | some n => upd H a (some { n with rc := n.rc + 1 })

/-- Rust `List::prepend` in the heap model: clone the original head handle
(incrementing its share count rather than copying the chain), then allocate
a fresh node `Rc::new(Node { elem, next: old head })` with count 1.
Returns (new heap, next fresh address, head link of the new list). -/
def prependH (H : Heap T) (fresh : Nat) (head : Option Nat) (elem : T) :
    Heap T × Nat × Option Nat :=
  let H1 := cloneAt H head
  (upd H1 fresh (some { elem := elem, next := head, rc := 1 }), fresh + 1, some fresh)

/-- Rust `Drop for List<T>` from third.rs in the heap model: starting from the
taken head handle, `Rc::try_unwrap(node)` succeeds iff the count is 1, in
which case the node is moved out (deallocated) and the walk continues with
its taken `next`; otherwise dropping this last handle just decrements the
count and the walk stops (`break`). `fuel` bounds the loop for
well-foundedness; any `fuel ≥` chain length is enough. -/
def dropRun : Nat → Heap T → Option Nat → Heap T
  | _, H, none => H
  | 0, H, some _ => H
  | fuel + 1, H, some a =>
    match H a with
    | none => H
    | some n =>
      if n.rc = 1 then dropRun fuel (upd H a none) n.next
      else upd H a (some { n with rc := n.rc - 1 })

/-- Chain predicate: `addrs` is the address chain of the list starting at link `head`:
successive `next` links, ending in the empty link. -/
def chainb (H : Heap T) : Option Nat → Vals Nat → Bool
  | none, [] => true
  | some a, b :: rest =>
    a == b &&
      (match H a with
       | none => false
       | some n => chainb H n.next rest)
  | none, _ :: _ => false
  | some _, [] => false

/-- The stored strong count at an address (0 if unallocated). -/
def rcOf (H : Heap T) (a : Nat) : Nat :=
  match H a with
  | none => 0
  | some n => n.rc

/-- The observable content (element values) at a sequence of addresses. -/
def elemsAt (H : Heap T) (addrs : Vals Nat) : Vals (Option T) :=
  addrs.map fun a => (H a).map RNode.elem

/-- The ownership-irrelevant part of a heap cell: element and next link
(everything a read observes; the strong count is bookkeeping only). -/
def en (o : Option (RNode T)) : Option (T × Option Nat) :=
  o.map fun n => (n.elem, n.next)

/-- The C3 scenario `let a = base.prepend(x); let b = base.prepend(y);` in
the heap model: both prepends clone the same base head handle. Returns
(final heap, head link of a, head link of b); allocation hands out `fresh`
then `fresh + 1`. -/
def prepTwo (H : Heap T) (fresh : Nat) (head : Option Nat) (x y : T) :
    Heap T × Option Nat × Option Nat :=
  let R1 := prependH H fresh head x
  let R2 := prependH R1.1 R1.2.1 head y
  (R2.1, R1.2.2, R2.2.2)

/-- A concrete three-node heap: the chain 0 → 1 → 2 holds 10, 20, 30, and
the middle node (address 1) is additionally shared by another holder
(strong count 2); nodes 0 and 2 are uniquely owned. -/
def exHeap : Heap Int := fun x =>
  if x = 0 then some { elem := 10, next := some 1, rc := 1 }
  else if x = 1 then some { elem := 20, next := some 2, rc := 2 }
  else if x = 2 then some { elem := 30, next := none, rc := 1 }
  else none

end ThirdRc

/-! ### Helper lemmas: ExclusiveList (First) -/

theorem first_push_toSeq (l : First.List) (e : Int) :
    (l.push e).head.toSeq = e :: l.head.toSeq := by
  simp [First.List.push, First.Link.toSeq, First.Node.seqFrom]

theorem first_pushAll_toSeq (vals : Vals Int) :
    ∀ l : First.List, (l.pushAll vals).head.toSeq = vals.reverse ++ l.head.toSeq := by
  induction vals with
  | nil => intro l; simp [First.List.pushAll]
  | cons v vs ih =>
      intro l
      have h1 : l.pushAll (v :: vs) = (l.push v).pushAll vs := by
        simp [First.List.pushAll]
      rw [h1, ih (l.push v), first_push_toSeq]
      simp

theorem first_popN_toSeq :
    (h : First.Link) →
      First.List.popN h.toSeq.length { head := h } =
        (h.toSeq.map some, First.List.new)
  | .empty => by
      simp [First.Link.toSeq, First.List.popN, First.List.new]
  | .more (.mk e next) => by
      have ih := first_popN_toSeq next
      simp [First.Link.toSeq, First.Node.seqFrom, First.List.popN, First.List.pop, ih,
        First.Node.elem, First.Node.next]

theorem first_popN_split (m n : Nat) :
    ∀ l : First.List,
      First.List.popN (m + n) l =
        ((First.List.popN m l).1 ++ (First.List.popN n (First.List.popN m l).2).1,
         (First.List.popN n (First.List.popN m l).2).2) := by
  induction m with
  | zero => intro l; simp [First.List.popN]
  | succ k ih =>
      intro l
      have h1 : k + 1 + n = (k + n) + 1 := by omega
      rw [h1]
      simp only [First.List.popN, ih (l.pop).2]
      simp

/-! ### Helper lemmas: GenericBorrowList (Second) -/

theorem second_push_toSeq {T : Type} (l : Second.List T) (e : T) :
    (l.push e).toSeq = e :: l.toSeq := by
  simp [Second.List.push, Second.List.toSeq, Second.linkToSeq]

theorem second_pushAll_toSeq {T : Type} (vals : Vals T) :
    ∀ l : Second.List T, (l.pushAll vals).toSeq = vals.reverse ++ l.toSeq := by
  induction vals with
  | nil => intro l; simp [Second.List.pushAll]
  | cons v vs ih =>
      intro l
      have h1 : l.pushAll (v :: vs) = (l.push v).pushAll vs := by
        simp [Second.List.pushAll]
      rw [h1, ih (l.push v), second_push_toSeq]
      simp

theorem second_popN_toSeq {T : Type} :
    (h : Second.Link T) →
      Second.List.popN (Second.linkToSeq h).length { head := h } =
        ((Second.linkToSeq h).map some, Second.List.new)
  | none => by
      simp [Second.linkToSeq, Second.List.popN, Second.List.new]
  | some (.mk e next) => by
      have ih := second_popN_toSeq next
      simp [Second.linkToSeq, Second.List.popN, Second.List.pop, ih,
        Second.Node.elem, Second.Node.next]

theorem second_popN_split {T : Type} (m n : Nat) :
    ∀ l : Second.List T,
      Second.List.popN (m + n) l =
        ((Second.List.popN m l).1 ++ (Second.List.popN n (Second.List.popN m l).2).1,
         (Second.List.popN n (Second.List.popN m l).2).2) := by
  induction m with
  | zero => intro l; simp [Second.List.popN]
  | succ k ih =>
      intro l
      have h1 : k + 1 + n = (k + n) + 1 := by omega
      rw [h1]
      simp only [Second.List.popN, ih (l.pop).2]
      simp

/-- C1: for every sequence of n pushes followed by n pops, on the
ExclusiveList (`First`) and on the GenericBorrowList (`Second`), the pops
return exactly the pushed elements in reverse push order (LIFO) and leave
the list empty, and the (n+1)-th pop after exhaustion returns `none`. -/
theorem push_pop_lifo {T : Type} (vals : Vals Int) (gvals : Vals T) :
    (First.List.new.pushAll vals).popN vals.length =
      (vals.reverse.map some, First.List.new) ∧
    ((First.List.new.pushAll vals).popN (vals.length + 1)).1 =
      vals.reverse.map some ++ [none] ∧
    (Second.List.new.pushAll gvals).popN gvals.length =
      ((gvals.reverse.map some : Vals (Option T)), Second.List.new) ∧
    ((Second.List.new.pushAll gvals).popN (gvals.length + 1)).1 =
      gvals.reverse.map some ++ [none] := by
  have hh1 : (First.List.new.pushAll vals).head.toSeq = vals.reverse := by
    rw [first_pushAll_toSeq]
    simp [First.List.new, First.Link.toSeq]
  have hc1 : (First.List.new.pushAll vals).popN vals.length =
      (vals.reverse.map some, First.List.new) := by
    have h := first_popN_toSeq (First.List.new.pushAll vals).head
    rw [hh1] at h
    simpa using h
  have hpop1 : First.List.popN 1 First.List.new = ([none], First.List.new) := by
    simp [First.List.popN, First.List.pop, First.List.new]
  have hc2 : ((First.List.new.pushAll vals).popN (vals.length + 1)).1 =
      vals.reverse.map some ++ [none] := by
    rw [first_popN_split vals.length 1, hc1]
    simp [hpop1]
  have hh2 : (Second.List.new.pushAll gvals).toSeq = gvals.reverse := by
    rw [second_pushAll_toSeq]
    simp [Second.List.new, Second.List.toSeq, Second.linkToSeq]
  have hc3 : (Second.List.new.pushAll gvals).popN gvals.length =
      ((gvals.reverse.map some : Vals (Option T)), Second.List.new) := by
    have h := second_popN_toSeq (Second.List.new.pushAll gvals).head
    rw [show Second.linkToSeq (Second.List.new.pushAll gvals).head =
        gvals.reverse from hh2] at h
    simpa using h
  have hpop2 : Second.List.popN 1 (Second.List.new : Second.List T) =
      ([none], Second.List.new) := by
    simp [Second.List.popN, Second.List.pop, Second.List.new]
  have hc4 : ((Second.List.new.pushAll gvals).popN (gvals.length + 1)).1 =
      gvals.reverse.map some ++ [none] := by
    rw [second_popN_split gvals.length 1, hc3]
    simp [hpop2]
  exact ⟨hc1, hc2, hc3, hc4⟩

/-! ### Empty-list pops, peeks, teardown -/

theorem first_popN_new (n : Nat) :
    First.List.popN n First.List.new = (List.replicate n none, First.List.new) := by
  induction n with
  | zero => simp [First.List.popN]
  | succ k ih =>
      simp [First.List.new] at ih
      simp [First.List.popN, First.List.pop, First.List.new, ih, List.replicate_succ]

theorem second_popN_new {T : Type} (n : Nat) :
    Second.List.popN n (Second.List.new : Second.List T) =
      (List.replicate n none, Second.List.new) := by
  induction n with
  | zero => simp [Second.List.popN]
  | succ k ih =>
      simp [Second.List.new] at ih
      simp [Second.List.popN, Second.List.pop, Second.List.new, ih, List.replicate_succ]

/-- C7: popping an empty list (ExclusiveList or GenericBorrowList) returns
`none` rather than an error, leaves the list unchanged (still empty), and
is idempotent: `n` repeated pops on the empty list all return `none` and
the list is still the empty list afterwards. -/
theorem pop_empty_idempotent {T : Type} (n : Nat) :
    First.List.new.pop = (none, First.List.new) ∧
    First.List.popN n First.List.new = (List.replicate n none, First.List.new) ∧
    (Second.List.new : Second.List T).pop = (none, Second.List.new) ∧
    Second.List.popN n (Second.List.new : Second.List T) =
      (List.replicate n none, Second.List.new) := by
  refine ⟨?_, first_popN_new n, ?_, second_popN_new n⟩
  · simp [First.List.pop, First.List.new]
  · simp [Second.List.pop, Second.List.new]

/-- C4: `peek` and `peek_mut` on the empty GenericBorrowList return `none`;
on a non-empty list both observe the most recently pushed element, the
list's (traversal-derived) length is what it was before the peek, and the
subsequent pop returns exactly the value peek reported. -/
theorem peek_observes_front {T : Type} (l : Second.List T) (v : T) :
    (Second.List.new : Second.List T).peek = none ∧
    (Second.List.new : Second.List T).peekMut = none ∧
    (l.push v).peek = some v ∧
    (l.push v).peekMut = some v ∧
    (l.push v).len = l.len + 1 ∧
    l.pop.1 = l.peek ∧
    l.pop.1 = l.peekMut := by
  refine ⟨?_, ?_, ?_, ?_, ?_, ?_, ?_⟩
  · simp [Second.List.peek, Second.List.new]
  · simp [Second.List.peekMut, Second.List.new]
  · simp [Second.List.peek, Second.List.push, Second.Node.elem]
  · simp [Second.List.peekMut, Second.List.push, Second.Node.elem]
  · simp [Second.List.len, second_push_toSeq]
  · cases h : l.head with
    | none => simp [Second.List.pop, Second.List.peek, h]
    | some node => simp [Second.List.pop, Second.List.peek, h]
  · cases h : l.head with
    | none => simp [Second.List.pop, Second.List.peekMut, h]
    | some node => simp [Second.List.pop, Second.List.peekMut, h]

/-- C5: on a non-empty GenericBorrowList, writing `v` through the mutable
view returned by `peek_mut` makes the next pop return `v` (with the same
remaining list a pop would otherwise have left), front element replaced by
`v` and the rest of the contents unaffected. -/
theorem write_peek_mut_changes_pop {T : Type} (l : Second.List T) (v : T)
    (h : l.peekMut.isSome = true) :
    (l.writePeekMut v).pop = (some v, l.pop.2) ∧
    (l.writePeekMut v).toSeq = v :: l.toSeq.tail := by
  cases hh : l.head with
  | none => simp [Second.List.peekMut, hh] at h
  | some node =>
      cases node with
      | mk e next =>
          constructor
          · simp [Second.List.writePeekMut, Second.List.pop, hh, Second.Node.elem,
              Second.Node.next]
          · simp [Second.List.writePeekMut, Second.List.toSeq, Second.linkToSeq, hh,
              Second.Node.next]

/-- Witness for `write_peek_mut_changes_pop` at the list [1] and v = 42. -/
theorem write_peek_mut_changes_pop_witness :
    ((Second.List.new.push (1 : Int)).peekMut.isSome = true) ∧
    (((Second.List.new.push (1 : Int)).writePeekMut 42).pop =
        (some 42, (Second.List.new.push (1 : Int)).pop.2) ∧
      ((Second.List.new.push (1 : Int)).writePeekMut 42).toSeq =
        42 :: (Second.List.new.push (1 : Int)).toSeq.tail) :=
  ⟨rfl, write_peek_mut_changes_pop (Second.List.new.push (1 : Int)) 42 rfl⟩

theorem first_dropTrace_spec :
    (h : First.Link) →
      (First.dropTrace h).length = h.toSeq.length ∧
      (First.dropTrace h).map First.Node.elem = h.toSeq ∧
      ∀ n ∈ First.dropTrace h, n.next = First.Link.empty
  | .empty => by
      simp [First.dropTrace, First.Link.toSeq]
  | .more (.mk e next) => by
      have ih := first_dropTrace_spec next
      simp [First.dropTrace, First.Link.toSeq, First.Node.seqFrom, First.Node.elem,
        First.Node.next, ih.1, ih.2.1]
      exact ih.2.2

theorem second_dropTrace_spec {T : Type} :
    (h : Second.Link T) →
      (Second.dropTrace h).length = (Second.linkToSeq h).length ∧
      (Second.dropTrace h).map Second.Node.elem = Second.linkToSeq h ∧
      ∀ n ∈ Second.dropTrace h, n.next = none
  | none => by
      simp [Second.dropTrace, Second.linkToSeq]
  | some (.mk e next) => by
      have ih := second_dropTrace_spec next
      simp [Second.dropTrace, Second.linkToSeq, Second.Node.elem,
        Second.Node.next, ih.1, ih.2.1]
      exact ih.2.2

/-- C8: teardown of an ExclusiveList or GenericBorrowList of any finite
length is an iterative loop: it releases exactly one node per list element
(one loop iteration per node — `length` of the release trace equals the
list length, for every length), in front-to-back order, and every node is
released with its outgoing link already neutralized (set to the empty
link), so releasing a node can never cascade recursively into the rest of
the chain; afterwards the list is the empty list. -/
theorem drop_releases_iteratively {T : Type} (l1 : First.List) (l2 : Second.List T) :
    (l1.drop.1.length = l1.len ∧
      l1.drop.1.map First.Node.elem = l1.head.toSeq ∧
      (∀ n ∈ l1.drop.1, n.next = First.Link.empty) ∧
      l1.drop.2 = First.List.new) ∧
    (l2.drop.1.length = l2.len ∧
      l2.drop.1.map Second.Node.elem = l2.toSeq ∧
      (∀ n ∈ l2.drop.1, n.next = none) ∧
      l2.drop.2 = Second.List.new) := by
  have h1 := first_dropTrace_spec l1.head
  have h2 := second_dropTrace_spec (T := T) l2.head
  exact ⟨⟨h1.1, h1.2.1, h1.2.2, rfl⟩, ⟨h2.1, h2.2.1, h2.2.2, rfl⟩⟩

/-! ### Iterator lemmas (Second) -/

theorem second_intoIter_collect {T : Type} :
    ∀ (fuel : Nat) (h : Second.Link T), (Second.linkToSeq h).length ≤ fuel →
      collect Second.IntoIter.step fuel { inner := { head := h } } = Second.linkToSeq h := by
  intro fuel
  induction fuel with
  | zero =>
      intro h hf
      cases h with
      | none => simp [collect, Second.linkToSeq]
      | some node => cases node with
        | mk e next => simp [Second.linkToSeq] at hf
  | succ k ih =>
      intro h hf
      cases h with
      | none =>
          simp [collect, Second.IntoIter.step, Second.List.pop, Second.linkToSeq]
      | some node =>
          cases node with
          | mk e next =>
              simp [Second.linkToSeq] at hf ⊢
              simp [collect, Second.IntoIter.step, Second.List.pop, Second.Node.elem,
                Second.Node.next]
              exact ih next (by omega)

theorem second_iter_collect {T : Type} :
    ∀ (fuel : Nat) (h : Second.Link T), (Second.linkToSeq h).length ≤ fuel →
      collect Second.Iter.step fuel { next := h.asDeref } = Second.linkToSeq h := by
  intro fuel
  induction fuel with
  | zero =>
      intro h hf
      cases h with
      | none => simp [collect, Second.linkToSeq]
      | some node => cases node with
        | mk e next => simp [Second.linkToSeq] at hf
  | succ k ih =>
      intro h hf
      cases h with
      | none =>
          simp [collect, Second.Iter.step, Second.Link.asDeref, Second.linkToSeq]
      | some node =>
          cases node with
          | mk e next =>
              simp [Second.linkToSeq] at hf ⊢
              simp [collect, Second.Iter.step, Second.Link.asDeref, Second.Node.elem,
                Second.Node.next]
              exact ih next (by omega)

theorem second_iterMut_collect {T : Type} :
    ∀ (fuel : Nat) (h : Second.Link T), (Second.linkToSeq h).length ≤ fuel →
      collect Second.IterMut.step fuel { next := h } = Second.linkToSeq h := by
  intro fuel
  induction fuel with
  | zero =>
      intro h hf
      cases h with
      | none => simp [collect, Second.linkToSeq]
      | some node => cases node with
        | mk e next => simp [Second.linkToSeq] at hf
  | succ k ih =>
      intro h hf
      cases h with
      | none =>
          simp [collect, Second.IterMut.step, Second.linkToSeq]
      | some node =>
          cases node with
          | mk e next =>
              simp [Second.linkToSeq] at hf ⊢
              simp [collect, Second.IterMut.step, Second.Node.elem, Second.Node.next]
              exact ih next (by omega)

/-- C6: on any GenericBorrowList, `into_iter`, `iter` and `iter_mut` all
yield the elements in the same front-to-back order (the list's contents),
`iter` and `iter_mut` visit exactly `len` elements while the list value
they borrow stays as it was (its length is unchanged), and on the list
built by push(1), push(2), push(3) the yield is exactly [3, 2, 1] and then
the iteration terminates (any amount of extra fuel yields nothing more). -/
theorem iterators_yield_same_order {T : Type} (l : Second.List T) (fuel : Nat)
    (hf : l.len ≤ fuel) :
    collect Second.IntoIter.step fuel l.intoIter = l.toSeq ∧
    collect Second.Iter.step fuel l.iter = l.toSeq ∧
    collect Second.IterMut.step fuel l.iterMut = l.toSeq ∧
    (collect Second.Iter.step fuel l.iter).length = l.len ∧
    (collect Second.IterMut.step fuel l.iterMut).length = l.len ∧
    ∀ k : Nat,
      collect Second.IntoIter.step (3 + k)
        (((Second.List.new.push (1 : Int)).push 2).push 3).intoIter = [3, 2, 1] := by
  have h1 : collect Second.IntoIter.step fuel l.intoIter = l.toSeq :=
    second_intoIter_collect fuel l.head hf
  have h2 : collect Second.Iter.step fuel l.iter = l.toSeq :=
    second_iter_collect fuel l.head hf
  have h3 : collect Second.IterMut.step fuel l.iterMut = l.toSeq :=
    second_iterMut_collect fuel l.head hf
  refine ⟨h1, h2, h3, ?_, ?_, ?_⟩
  · rw [h2]; rfl
  · rw [h3]; rfl
  · intro k
    have hc := second_intoIter_collect (T := Int) (3 + k)
      ((((Second.List.new.push (1 : Int)).push 2).push 3).head)
      (by simp [Second.List.push, Second.List.new, Second.linkToSeq])
    simpa [Second.List.push, Second.List.new, Second.linkToSeq] using hc

/-- Witness for `iterators_yield_same_order` at the list [3, 2, 1] (built
by push 1, push 2, push 3) with fuel 3. -/
theorem iterators_yield_same_order_witness :
    ((((Second.List.new.push (1 : Int)).push 2).push 3).len ≤ 3) ∧
    (collect Second.IntoIter.step 3
        (((Second.List.new.push (1 : Int)).push 2).push 3).intoIter =
      (((Second.List.new.push (1 : Int)).push 2).push 3).toSeq ∧
      collect Second.Iter.step 3
          (((Second.List.new.push (1 : Int)).push 2).push 3).iter =
        (((Second.List.new.push (1 : Int)).push 2).push 3).toSeq ∧
      collect Second.IterMut.step 3
          (((Second.List.new.push (1 : Int)).push 2).push 3).iterMut =
        (((Second.List.new.push (1 : Int)).push 2).push 3).toSeq ∧
      (collect Second.Iter.step 3
          (((Second.List.new.push (1 : Int)).push 2).push 3).iter).length =
        (((Second.List.new.push (1 : Int)).push 2).push 3).len ∧
      (collect Second.IterMut.step 3
          (((Second.List.new.push (1 : Int)).push 2).push 3).iterMut).length =
        (((Second.List.new.push (1 : Int)).push 2).push 3).len ∧
      ∀ k : Nat,
        collect Second.IntoIter.step (3 + k)
          (((Second.List.new.push (1 : Int)).push 2).push 3).intoIter = [3, 2, 1]) :=
  ⟨by simp [Second.List.len, Second.List.toSeq, Second.List.push, Second.List.new,
      Second.linkToSeq],
   iterators_yield_same_order (((Second.List.new.push (1 : Int)).push 2).push 3) 3
     (by simp [Second.List.len, Second.List.toSeq, Second.List.push, Second.List.new,
       Second.linkToSeq])⟩

/-! ### PersistentSharedList: observable behaviour -/

/-- C2: for `List::new().prepend(1).prepend(2).prepend(3)`: head() is 3;
after one tail() head() is 2; after two tails from that original head() is
1; after three tails head() is the empty signal; and tail() on an
already-empty list returns an empty list (no error). -/
theorem persistent_prepend_tail_head :
    (((Third.List.new.prepend (1 : Int)).prepend 2).prepend 3).head? = some 3 ∧
    (((Third.List.new.prepend (1 : Int)).prepend 2).prepend 3).tail.head? = some 2 ∧
    (((Third.List.new.prepend (1 : Int)).prepend 2).prepend 3).tail.tail.head? = some 1 ∧
    (((Third.List.new.prepend (1 : Int)).prepend 2).prepend 3).tail.tail.tail.head? =
      none ∧
    (((Third.List.new.prepend (1 : Int)).prepend 2).prepend 3).tail.tail.tail.tail =
      Third.List.new ∧
    (Third.List.new : Third.List Int).tail = Third.List.new := by
  refine ⟨rfl, rfl, rfl, rfl, rfl, rfl⟩

theorem third_iter_collect {T : Type} :
    ∀ (fuel : Nat) (h : Third.Link T), (Third.linkToSeq h).length ≤ fuel →
      collect Third.Iter.step fuel { next := h.asDeref } = Third.linkToSeq h := by
  intro fuel
  induction fuel with
  | zero =>
      intro h hf
      cases h with
      | none => simp [collect, Third.linkToSeq]
      | some node => cases node with
        | mk e next => simp [Third.linkToSeq] at hf
  | succ k ih =>
      intro h hf
      cases h with
      | none =>
          simp [collect, Third.Iter.step, Third.Link.asDeref, Third.linkToSeq]
      | some node =>
          cases node with
          | mk e next =>
              simp [Third.linkToSeq] at hf ⊢
              simp [collect, Third.Iter.step, Third.Link.asDeref, Third.Node.elem,
                Third.Node.next]
              exact ih next (by omega)

theorem third_headTail_iter_eq {T : Type} :
    ∀ (fuel : Nat) (l : Third.List T),
      collect Third.Iter.step fuel l.iter = collect Third.headTailStep fuel l := by
  intro fuel
  induction fuel with
  | zero => intro l; simp [collect]
  | succ k ih =>
      intro l
      cases hh : l.head with
      | none =>
          simp [collect, Third.List.iter, Third.Iter.step, Third.Link.asDeref,
            Third.headTailStep, Third.List.head?, Third.List.tail, hh]
      | some node =>
          cases node with
          | mk e next =>
              have := ih { head := next }
              simp [collect, Third.List.iter, Third.Iter.step, Third.Link.asDeref,
                Third.headTailStep, Third.List.head?, Third.List.tail, hh,
                Third.Node.elem, Third.Node.next]
              simpa [Third.List.iter, Third.Link.asDeref] using this

/-- C10: on any PersistentSharedList, `iter()` yields exactly the sequence
of elements obtained by repeatedly taking `head()` and then `tail()` until
empty (for every fuel the two observation sequences agree step by step),
and with enough fuel that common sequence is the list's contents
front-to-back; the list value itself is not consumed or modified (both
observations are functions of the unchanged list). -/
theorem persistent_iter_matches_head_tail {T : Type} (l : Third.List T) (fuel : Nat)
    (hf : l.toSeq.length ≤ fuel) :
    (∀ f2 : Nat, collect Third.Iter.step f2 l.iter = collect Third.headTailStep f2 l) ∧
    collect Third.Iter.step fuel l.iter = l.toSeq ∧
    collect Third.headTailStep fuel l = l.toSeq := by
  have h1 : collect Third.Iter.step fuel l.iter = l.toSeq :=
    third_iter_collect fuel l.head hf
  refine ⟨fun f2 => third_headTail_iter_eq f2 l, h1, ?_⟩
  rw [← third_headTail_iter_eq fuel l]
  exact h1

/-- Witness for `persistent_iter_matches_head_tail` at the list
`new().prepend(1).prepend(2).prepend(3)` with fuel 3. -/
theorem persistent_iter_matches_head_tail_witness :
    ((((Third.List.new.prepend (1 : Int)).prepend 2).prepend 3).toSeq.length ≤ 3) ∧
    ((∀ f2 : Nat,
        collect Third.Iter.step f2
            (((Third.List.new.prepend (1 : Int)).prepend 2).prepend 3).iter =
          collect Third.headTailStep f2
            (((Third.List.new.prepend (1 : Int)).prepend 2).prepend 3)) ∧
      collect Third.Iter.step 3
          (((Third.List.new.prepend (1 : Int)).prepend 2).prepend 3).iter =
        (((Third.List.new.prepend (1 : Int)).prepend 2).prepend 3).toSeq ∧
      collect Third.headTailStep 3
          (((Third.List.new.prepend (1 : Int)).prepend 2).prepend 3) =
        (((Third.List.new.prepend (1 : Int)).prepend 2).prepend 3).toSeq) :=
  ⟨by simp [Third.List.toSeq, Third.List.prepend, Third.List.new, Third.linkToSeq],
   persistent_iter_matches_head_tail
     (((Third.List.new.prepend (1 : Int)).prepend 2).prepend 3) 3
     (by simp [Third.List.toSeq, Third.List.prepend, Third.List.new, Third.linkToSeq])⟩

/-! ### Reference-count heap model lemmas -/

theorem thirdrc_upd_hit {T : Type} (H : ThirdRc.Heap T) (a : Nat) (v : Option (ThirdRc.RNode T)) :
    ThirdRc.upd H a v a = v := by
  simp [ThirdRc.upd]

theorem thirdrc_upd_miss {T : Type} (H : ThirdRc.Heap T) (a c : Nat)
    (v : Option (ThirdRc.RNode T)) (hc : c ≠ a) :
    ThirdRc.upd H a v c = H c := by
  simp [ThirdRc.upd, hc]

theorem thirdrc_cloneAt_en {T : Type} (H : ThirdRc.Heap T) (l : Option Nat) (c : Nat) :
    ThirdRc.en (ThirdRc.cloneAt H l c) = ThirdRc.en (H c) := by
  cases l with
  | none => rfl
  | some a =>
      cases ha : H a with
      | none => simp [ThirdRc.cloneAt, ha]
      | some n =>
          by_cases hc : c = a
          · subst hc
            simp [ThirdRc.cloneAt, ha, thirdrc_upd_hit, ThirdRc.en]
          · simp [ThirdRc.cloneAt, ha, thirdrc_upd_miss _ _ _ _ hc]

theorem thirdrc_cloneAt_miss {T : Type} (H : ThirdRc.Heap T) (l : Option Nat) (c : Nat)
    (hc : ∀ a, l = some a → c ≠ a) :
    ThirdRc.cloneAt H l c = H c := by
  cases l with
  | none => rfl
  | some a =>
      cases ha : H a with
      | none => simp [ThirdRc.cloneAt, ha]
      | some n => simp [ThirdRc.cloneAt, ha, thirdrc_upd_miss _ _ _ _ (hc a rfl)]

theorem thirdrc_cloneAt_hit {T : Type} (H : ThirdRc.Heap T) (a : Nat) (n : ThirdRc.RNode T)
    (ha : H a = some n) :
    ThirdRc.cloneAt H (some a) a = some { n with rc := n.rc + 1 } := by
  simp [ThirdRc.cloneAt, ha, thirdrc_upd_hit]

theorem thirdrc_en_elem {T : Type} (o1 o2 : Option (ThirdRc.RNode T))
    (h : ThirdRc.en o1 = ThirdRc.en o2) :
    o1.map ThirdRc.RNode.elem = o2.map ThirdRc.RNode.elem := by
  cases o1 with
  | none => cases o2 with
    | none => rfl
    | some n => simp [ThirdRc.en] at h
  | some n1 => cases o2 with
    | none => simp [ThirdRc.en] at h
    | some n2 =>
        simp [ThirdRc.en] at h
        simp [h.1]

theorem thirdrc_chainb_alloc {T : Type} :
    ∀ (addrs : Vals Nat) (H : ThirdRc.Heap T) (head : Option Nat),
      ThirdRc.chainb H head addrs = true → ∀ b ∈ addrs, H b ≠ none := by
  intro addrs
  induction addrs with
  | nil => intro H head _ b hb; simp at hb
  | cons a rest ih =>
      intro H head hch b hb
      cases head with
      | none => simp [ThirdRc.chainb] at hch
      | some a0 =>
          simp only [ThirdRc.chainb, Bool.and_eq_true, beq_iff_eq] at hch
          obtain ⟨rfl, hm⟩ := hch
          cases ha : H a0 with
          | none => rw [ha] at hm; simp at hm
          | some n =>
              rw [ha] at hm
              rcases List.mem_cons.mp hb with rfl | hb2
              · simp [ha]
              · exact ih H n.next hm b hb2

theorem thirdrc_chainb_en {T : Type} :
    ∀ (addrs : Vals Nat) (H H2 : ThirdRc.Heap T) (head : Option Nat),
      (∀ b ∈ addrs, ThirdRc.en (H2 b) = ThirdRc.en (H b)) →
      ThirdRc.chainb H head addrs = true →
      ThirdRc.chainb H2 head addrs = true := by
  intro addrs
  induction addrs with
  | nil =>
      intro H H2 head _ hch
      cases head with
      | none => simp [ThirdRc.chainb]
      | some a => simp [ThirdRc.chainb] at hch
  | cons a rest ih =>
      intro H H2 head hagree hch
      cases head with
      | none => simp [ThirdRc.chainb] at hch
      | some a0 =>
          simp only [ThirdRc.chainb, Bool.and_eq_true, beq_iff_eq] at hch
          obtain ⟨rfl, hm⟩ := hch
          cases ha : H a0 with
          | none => rw [ha] at hm; simp at hm
          | some n =>
              rw [ha] at hm
              have hen := hagree a0 (List.mem_cons_self a0 rest)
              rw [ha] at hen
              cases h2a : H2 a0 with
              | none => rw [h2a] at hen; simp [ThirdRc.en] at hen
              | some n2 =>
                  rw [h2a] at hen
                  simp [ThirdRc.en] at hen
                  have hrest := ih H H2 n.next
                    (fun b hb => hagree b (List.mem_cons_of_mem a0 hb)) hm
                  simp only [ThirdRc.chainb, Bool.and_eq_true, beq_iff_eq]
                  exact ⟨trivial, by simp [h2a, hen.2, hrest]⟩

theorem thirdrc_elemsAt_en {T : Type} (addrs : Vals Nat) (H H2 : ThirdRc.Heap T)
    (hagree : ∀ b ∈ addrs, ThirdRc.en (H2 b) = ThirdRc.en (H b)) :
    ThirdRc.elemsAt H2 addrs = ThirdRc.elemsAt H addrs := by
  simp only [ThirdRc.elemsAt]
  exact List.map_congr_left fun b hb => thirdrc_en_elem _ _ (hagree b hb)

theorem thirdrc_chainb_lt_fresh {T : Type} (addrs : Vals Nat) (H : ThirdRc.Heap T)
    (head : Option Nat) (fresh : Nat)
    (hch : ThirdRc.chainb H head addrs = true)
    (hfr : ∀ c, fresh ≤ c → H c = none) :
    ∀ b ∈ addrs, b < fresh := by
  intro b hb
  by_contra hlt
  exact thirdrc_chainb_alloc addrs H head hch b hb (hfr b (by omega))

/-- C9: when a PersistentSharedList value is destroyed, the teardown walks
its chain from the head: every node up to the first still-shared one (each
with share count exactly 1, so the count reaches zero as a result of this
release) is reclaimed; at the first node whose share count is still
positive after the decrement (stored count > 1) the walk stops — that node
keeps its element and link and only loses one share — and every heap cell
beyond the walked prefix (in particular the rest of the chain) is left
completely untouched. -/
theorem drop_stops_at_first_shared {T : Type} :
    ∀ (pre : Vals Nat) (H : ThirdRc.Heap T) (head : Option Nat) (a : Nat)
      (post : Vals Nat) (fuel : Nat),
      ThirdRc.chainb H head (pre ++ a :: post) = true →
      (pre ++ a :: post).Nodup →
      (∀ b ∈ pre, ThirdRc.rcOf H b = 1) →
      1 < ThirdRc.rcOf H a →
      pre.length < fuel →
      (∀ b ∈ pre, ThirdRc.dropRun fuel H head b = none) ∧
      ThirdRc.en (ThirdRc.dropRun fuel H head a) = ThirdRc.en (H a) ∧
      ThirdRc.rcOf (ThirdRc.dropRun fuel H head) a = ThirdRc.rcOf H a - 1 ∧
      (∀ c, c ∉ pre → c ≠ a → ThirdRc.dropRun fuel H head c = H c) := by
  intro pre
  induction pre with
  | nil =>
      intro H head a post fuel hch hnd hrc1 hrca hfuel
      cases head with
      | none => simp [ThirdRc.chainb] at hch
      | some a0 =>
          simp only [List.nil_append] at hch
          simp only [ThirdRc.chainb, Bool.and_eq_true, beq_iff_eq] at hch
          obtain ⟨rfl, hm⟩ := hch
          cases ha : H a0 with
          | none => rw [ha] at hm; simp at hm
          | some n =>
              have hrcn : n.rc = ThirdRc.rcOf H a0 := by simp [ThirdRc.rcOf, ha]
              have hne1 : ¬ n.rc = 1 := by omega
              cases fuel with
              | zero => omega
              | succ f =>
                  have hred : ThirdRc.dropRun (f + 1) H (some a0) =
                      ThirdRc.upd H a0 (some { n with rc := n.rc - 1 }) := by
                    simp [ThirdRc.dropRun, ha, hne1]
                  refine ⟨by simp, ?_, ?_, ?_⟩
                  · rw [hred, thirdrc_upd_hit]
                    simp [ha, ThirdRc.en]
                  · rw [hred]
                    simp [ThirdRc.rcOf, thirdrc_upd_hit, ha]
                  · intro c _ hca
                    rw [hred, thirdrc_upd_miss _ _ _ _ hca]
  | cons b pre2 ih =>
      intro H head a post fuel hch hnd hrc1 hrca hfuel
      cases head with
      | none => simp [ThirdRc.chainb] at hch
      | some a0 =>
          simp only [List.cons_append] at hch hnd
          simp only [ThirdRc.chainb, Bool.and_eq_true, beq_iff_eq] at hch
          obtain ⟨rfl, hm⟩ := hch
          cases ha : H a0 with
          | none => rw [ha] at hm; simp at hm
          | some n =>
              rw [ha] at hm
              have hmm : ThirdRc.chainb H n.next (pre2 ++ a :: post) = true := hm
              have hrcb : n.rc = 1 := by
                have := hrc1 a0 (List.mem_cons_self a0 pre2)
                simp [ThirdRc.rcOf, ha] at this
                exact this
              have hnotin : a0 ∉ pre2 ++ a :: post := (List.nodup_cons.mp hnd).1
              have hnd2 : (pre2 ++ a :: post).Nodup := (List.nodup_cons.mp hnd).2
              have hba : a0 ≠ a := by
                intro hEq
                subst hEq
                exact hnotin (List.mem_append_right pre2 (List.mem_cons_self a0 post))
              cases fuel with
              | zero => simp at hfuel
              | succ f =>
                  have hflen : pre2.length < f := by
                    simp at hfuel
                    omega
                  set H2 := ThirdRc.upd H a0 none with hH2
                  have hred : ThirdRc.dropRun (f + 1) H (some a0) =
                      ThirdRc.dropRun f H2 n.next := by
                    simp [ThirdRc.dropRun, ha, hrcb, hH2]
                  have hagree : ∀ c ∈ pre2 ++ a :: post,
                      ThirdRc.en (H2 c) = ThirdRc.en (H c) := by
                    intro c hc
                    have hcb : c ≠ a0 := fun hEq => hnotin (hEq ▸ hc)
                    rw [hH2, thirdrc_upd_miss _ _ _ _ hcb]
                  have hch2 : ThirdRc.chainb H2 n.next (pre2 ++ a :: post) = true :=
                    thirdrc_chainb_en _ H H2 n.next hagree hmm
                  have hrc2 : ∀ c, c ≠ a0 → ThirdRc.rcOf H2 c = ThirdRc.rcOf H c := by
                    intro c hcb
                    simp [ThirdRc.rcOf, hH2, thirdrc_upd_miss _ _ _ _ hcb]
                  have hpre2rc : ∀ c ∈ pre2, ThirdRc.rcOf H2 c = 1 := by
                    intro c hc
                    have hcb : c ≠ a0 :=
                      fun hEq => hnotin (hEq ▸ List.mem_append_left _ hc)
                    rw [hrc2 c hcb]
                    exact hrc1 c (List.mem_cons_of_mem a0 hc)
                  have harc2 : 1 < ThirdRc.rcOf H2 a := by
                    rw [hrc2 a (fun hEq => hba hEq.symm)]
                    exact hrca
                  obtain ⟨ihPre, ihEn, ihRc, ihOut⟩ :=
                    ih H2 n.next a post f hch2 hnd2 hpre2rc harc2 hflen
                  have hH2a : H2 a = H a :=
                    thirdrc_upd_miss _ _ _ _ (fun hEq => hba hEq.symm)
                  refine ⟨?_, ?_, ?_, ?_⟩
                  · intro c hc
                    rcases List.mem_cons.mp hc with rfl | hc2
                    · have hcpre2 : c ∉ pre2 :=
                        fun h2 => hnotin (List.mem_append_left _ h2)
                      rw [hred, ihOut c hcpre2 hba, hH2, thirdrc_upd_hit]
                    · rw [hred]
                      exact ihPre c hc2
                  · rw [hred, ihEn, hH2a]
                  · rw [hred, ihRc, hrc2 a (fun hEq => hba hEq.symm)]
                  · intro c hcpre hca
                    have hcb : c ≠ a0 := fun hEq => hcpre (hEq ▸ List.mem_cons_self a0 pre2)
                    have hcpre2 : c ∉ pre2 :=
                      fun hc2 => hcpre (List.mem_cons_of_mem a0 hc2)
                    rw [hred, ihOut c hcpre2 hca, hH2, thirdrc_upd_miss _ _ _ _ hcb]

/-- Witness for `drop_stops_at_first_shared` on `exHeap`: dropping the list
whose chain is 0 → 1 → 2 (node 1 shared with count 2) reclaims node 0,
decrements node 1, and leaves node 2 untouched. -/
theorem drop_stops_at_first_shared_witness :
    (ThirdRc.chainb ThirdRc.exHeap (some 0) ([0] ++ 1 :: [2]) = true) ∧
    (([0] ++ 1 :: [2]) : Vals Nat).Nodup ∧
    (∀ b ∈ ([0] : Vals Nat), ThirdRc.rcOf ThirdRc.exHeap b = 1) ∧
    (1 < ThirdRc.rcOf ThirdRc.exHeap 1) ∧
    (([0] : Vals Nat).length < 2) ∧
    ((∀ b ∈ ([0] : Vals Nat),
        ThirdRc.dropRun 2 ThirdRc.exHeap (some 0) b = none) ∧
      ThirdRc.en (ThirdRc.dropRun 2 ThirdRc.exHeap (some 0) 1) =
        ThirdRc.en (ThirdRc.exHeap 1) ∧
      ThirdRc.rcOf (ThirdRc.dropRun 2 ThirdRc.exHeap (some 0)) 1 =
        ThirdRc.rcOf ThirdRc.exHeap 1 - 1 ∧
      (∀ c, c ∉ ([0] : Vals Nat) → c ≠ 1 →
        ThirdRc.dropRun 2 ThirdRc.exHeap (some 0) c = ThirdRc.exHeap c)) :=
  ⟨by decide, by decide, by decide, by decide, by decide,
   drop_stops_at_first_shared [0] ThirdRc.exHeap (some 0) 1 [2] 2
     (by decide) (by decide) (by decide) (by decide) (by decide)⟩

theorem thirdrc_chainb_none_nil {T : Type} (H : ThirdRc.Heap T) (addrs : Vals Nat)
    (hch : ThirdRc.chainb H none addrs = true) : addrs = [] := by
  cases addrs with
  | nil => rfl
  | cons a rest => simp [ThirdRc.chainb] at hch

theorem thirdrc_chainb_some_cons {T : Type} (H : ThirdRc.Heap T) (a0 : Nat)
    (addrs : Vals Nat) (hch : ThirdRc.chainb H (some a0) addrs = true) :
    ∃ rest, addrs = a0 :: rest := by
  cases addrs with
  | nil => simp [ThirdRc.chainb] at hch
  | cons b rest =>
      simp only [ThirdRc.chainb, Bool.and_eq_true, beq_iff_eq] at hch
      exact ⟨rest, by rw [hch.1]⟩

theorem thirdrc_prependH_spec {T : Type} (H : ThirdRc.Heap T) (fresh : Nat)
    (base : Option Nat) (addrs : Vals Nat) (x : T)
    (hch : ThirdRc.chainb H base addrs = true)
    (hfr : ∀ c, fresh ≤ c → H c = none)
    (hrc : ∀ b ∈ addrs, 1 ≤ ThirdRc.rcOf H b) :
    (∀ c ∈ addrs,
      ThirdRc.en ((ThirdRc.prependH H fresh base x).1 c) = ThirdRc.en (H c)) ∧
    ThirdRc.chainb (ThirdRc.prependH H fresh base x).1 base addrs = true ∧
    (ThirdRc.prependH H fresh base x).1 fresh = some ⟨x, base, 1⟩ ∧
    ThirdRc.chainb (ThirdRc.prependH H fresh base x).1 (some fresh)
      (fresh :: addrs) = true ∧
    (∀ c, fresh + 1 ≤ c → (ThirdRc.prependH H fresh base x).1 c = none) ∧
    (∀ b ∈ addrs, 1 ≤ ThirdRc.rcOf (ThirdRc.prependH H fresh base x).1 b) ∧
    (∀ a0, base = some a0 →
      ThirdRc.rcOf (ThirdRc.prependH H fresh base x).1 a0 = ThirdRc.rcOf H a0 + 1) ∧
    (∀ c, c ≠ fresh → (∀ a0, base = some a0 → c ≠ a0) →
      (ThirdRc.prependH H fresh base x).1 c = H c) := by
  have hlt : ∀ b ∈ addrs, b < fresh := thirdrc_chainb_lt_fresh addrs H base fresh hch hfr
  have hbase_mem : ∀ a0, base = some a0 → a0 ∈ addrs ∧ a0 < fresh := by
    intro a0 hb
    subst hb
    obtain ⟨rest, hEq⟩ := thirdrc_chainb_some_cons H a0 addrs hch
    have hmem : a0 ∈ addrs := by rw [hEq]; exact List.mem_cons_self a0 rest
    exact ⟨hmem, hlt a0 hmem⟩
  have hH1 : (ThirdRc.prependH H fresh base x).1 =
      ThirdRc.upd (ThirdRc.cloneAt H base) fresh (some ⟨x, base, 1⟩) := rfl
  have hagree : ∀ c ∈ addrs,
      ThirdRc.en ((ThirdRc.prependH H fresh base x).1 c) = ThirdRc.en (H c) := by
    intro c hc
    have hcf : c ≠ fresh := by have := hlt c hc; omega
    rw [hH1, thirdrc_upd_miss _ _ _ _ hcf]
    exact thirdrc_cloneAt_en H base c
  have hch1 : ThirdRc.chainb (ThirdRc.prependH H fresh base x).1 base addrs = true :=
    thirdrc_chainb_en addrs H _ base hagree hch
  have hfreshval : (ThirdRc.prependH H fresh base x).1 fresh = some ⟨x, base, 1⟩ := by
    rw [hH1, thirdrc_upd_hit]
  have hchcons : ThirdRc.chainb (ThirdRc.prependH H fresh base x).1 (some fresh)
      (fresh :: addrs) = true := by
    simp [ThirdRc.chainb, hfreshval, hch1]
  have hfr1 : ∀ c, fresh + 1 ≤ c → (ThirdRc.prependH H fresh base x).1 c = none := by
    intro c hc
    have hcf : c ≠ fresh := by omega
    rw [hH1, thirdrc_upd_miss _ _ _ _ hcf]
    rw [thirdrc_cloneAt_miss]
    · exact hfr c (by omega)
    · intro a0 hb
      have := (hbase_mem a0 hb).2
      omega
  have hcl_rc : ∀ c, ThirdRc.rcOf (ThirdRc.cloneAt H base) c = ThirdRc.rcOf H c ∨
      ThirdRc.rcOf (ThirdRc.cloneAt H base) c = ThirdRc.rcOf H c + 1 := by
    intro c
    cases base with
    | none => left; rfl
    | some a0 =>
        cases ha : H a0 with
        | none => left; simp [ThirdRc.cloneAt, ha]
        | some n =>
            by_cases hc : c = a0
            · subst hc
              right
              simp [ThirdRc.rcOf, thirdrc_cloneAt_hit H c n ha, ha]
            · left
              simp [ThirdRc.rcOf, ThirdRc.cloneAt, ha, thirdrc_upd_miss _ _ _ _ hc]
  have hrc1 : ∀ b ∈ addrs, 1 ≤ ThirdRc.rcOf (ThirdRc.prependH H fresh base x).1 b := by
    intro b hb
    have hbf : b ≠ fresh := by have := hlt b hb; omega
    have : ThirdRc.rcOf (ThirdRc.prependH H fresh base x).1 b =
        ThirdRc.rcOf (ThirdRc.cloneAt H base) b := by
      simp [ThirdRc.rcOf, hH1, thirdrc_upd_miss _ _ _ _ hbf]
    rw [this]
    rcases hcl_rc b with hEq | hEq <;> rw [hEq]
    · exact hrc b hb
    · omega
  have hrcbase : ∀ a0, base = some a0 →
      ThirdRc.rcOf (ThirdRc.prependH H fresh base x).1 a0 = ThirdRc.rcOf H a0 + 1 := by
    intro a0 hb
    have ha0f : a0 ≠ fresh := by have := (hbase_mem a0 hb).2; omega
    have halloc := thirdrc_chainb_alloc addrs H base hch a0 (hbase_mem a0 hb).1
    cases ha : H a0 with
    | none => exact absurd ha halloc
    | some n =>
        subst hb
        rw [hH1]
        simp [ThirdRc.rcOf, thirdrc_upd_miss _ _ _ _ ha0f,
          thirdrc_cloneAt_hit H a0 n ha, ha]
  have huntouched : ∀ c, c ≠ fresh → (∀ a0, base = some a0 → c ≠ a0) →
      (ThirdRc.prependH H fresh base x).1 c = H c := by
    intro c hcf hca
    rw [hH1, thirdrc_upd_miss _ _ _ _ hcf, thirdrc_cloneAt_miss _ _ _ hca]
  exact ⟨hagree, hch1, hfreshval, hchcons, hfr1, hrc1, hrcbase, huntouched⟩

theorem thirdrc_drop_fresh_en {T : Type} (H : ThirdRc.Heap T) (f0 : Nat) (x : T)
    (base : Option Nat) (fuel : Nat)
    (hf0 : H f0 = some ⟨x, base, 1⟩)
    (hbase : ∀ a0, base = some a0 → ∃ n, H a0 = some n ∧ 2 ≤ n.rc)
    (hfuel : 2 ≤ fuel) :
    ∀ c, c ≠ f0 →
      ThirdRc.en (ThirdRc.dropRun fuel H (some f0) c) = ThirdRc.en (H c) := by
  obtain ⟨k, rfl⟩ : ∃ k, fuel = k + 2 := ⟨fuel - 2, by omega⟩
  have hstep : ThirdRc.dropRun (k + 2) H (some f0) =
      ThirdRc.dropRun (k + 1) (ThirdRc.upd H f0 none) base := by
    simp [ThirdRc.dropRun, hf0]
  cases base with
  | none =>
      intro c hc
      rw [hstep]
      simp [ThirdRc.dropRun, thirdrc_upd_miss _ _ _ _ hc]
  | some a0 =>
      obtain ⟨n, ha0, hrcn⟩ := hbase a0 rfl
      have ha0f : a0 ≠ f0 := by
        intro hEq
        rw [hEq, hf0] at ha0
        injection ha0 with h
        rw [← h] at hrcn
        simp at hrcn
      have ha0v : ThirdRc.upd H f0 none a0 = some n := by
        rw [thirdrc_upd_miss _ _ _ _ ha0f, ha0]
      have hne1 : ¬ n.rc = 1 := by omega
      have hstep2 : ThirdRc.dropRun (k + 1) (ThirdRc.upd H f0 none) (some a0) =
          ThirdRc.upd (ThirdRc.upd H f0 none) a0 (some { n with rc := n.rc - 1 }) := by
        simp [ThirdRc.dropRun, ha0v, hne1]
      intro c hc
      rw [hstep, hstep2]
      by_cases hca : c = a0
      · subst hca
        rw [thirdrc_upd_hit, ha0]
        simp [ThirdRc.en]
      · rw [thirdrc_upd_miss _ _ _ _ hca, thirdrc_upd_miss _ _ _ _ hc]

theorem thirdrc_elemsAt_cons {T : Type} (H : ThirdRc.Heap T) (c : Nat) (l : Vals Nat) :
    ThirdRc.elemsAt H (c :: l) = (H c).map ThirdRc.RNode.elem :: ThirdRc.elemsAt H l := by
  simp [ThirdRc.elemsAt]

/-- C3: in the reference-counted heap model of third.rs, for any base list
(chain `addrs` from link `base`) and `a = base.prepend(x)`,
`b = base.prepend(y)`: `a`'s head is a freshly allocated node holding `x`
whose `next` is a shared handle to `base`'s head (the base head's share
count goes up by two across the two prepends — shared, not copied, with
no node duplicated); the base chain stays valid with unchanged contents;
reading `a` gives `x` then base's elements (never `y`) and reading `b`
gives `y` then base's elements (never `x`); and after destroying `a`,
`b`'s whole chain — including the shared tail — is still intact with the
same contents. -/
theorem prepend_independent_siblings {T : Type} (H : ThirdRc.Heap T) (fresh : Nat)
    (base : Option Nat) (addrs : Vals Nat) (x y : T) (fuel : Nat)
    (hch : ThirdRc.chainb H base addrs = true)
    (hfr : ∀ c, fresh ≤ c → H c = none)
    (hrc : ∀ b ∈ addrs, 1 ≤ ThirdRc.rcOf H b)
    (hfuel : 2 ≤ fuel) :
    (ThirdRc.prepTwo H fresh base x y).2.1 = some fresh ∧
    (ThirdRc.prepTwo H fresh base x y).2.2 = some (fresh + 1) ∧
    (ThirdRc.prepTwo H fresh base x y).1 fresh = some ⟨x, base, 1⟩ ∧
    (ThirdRc.prepTwo H fresh base x y).1 (fresh + 1) = some ⟨y, base, 1⟩ ∧
    ThirdRc.chainb (ThirdRc.prepTwo H fresh base x y).1 base addrs = true ∧
    ThirdRc.elemsAt (ThirdRc.prepTwo H fresh base x y).1 addrs =
      ThirdRc.elemsAt H addrs ∧
    (∀ a0, base = some a0 →
      ThirdRc.rcOf (ThirdRc.prepTwo H fresh base x y).1 a0 =
        ThirdRc.rcOf H a0 + 2) ∧
    ThirdRc.chainb (ThirdRc.prepTwo H fresh base x y).1 (some fresh)
      (fresh :: addrs) = true ∧
    ThirdRc.elemsAt (ThirdRc.prepTwo H fresh base x y).1 (fresh :: addrs) =
      some x :: ThirdRc.elemsAt H addrs ∧
    ThirdRc.chainb (ThirdRc.prepTwo H fresh base x y).1 (some (fresh + 1))
      ((fresh + 1) :: addrs) = true ∧
    ThirdRc.elemsAt (ThirdRc.prepTwo H fresh base x y).1 ((fresh + 1) :: addrs) =
      some y :: ThirdRc.elemsAt H addrs ∧
    ThirdRc.chainb
      (ThirdRc.dropRun fuel (ThirdRc.prepTwo H fresh base x y).1 (some fresh))
      (some (fresh + 1)) ((fresh + 1) :: addrs) = true ∧
    ThirdRc.elemsAt
      (ThirdRc.dropRun fuel (ThirdRc.prepTwo H fresh base x y).1 (some fresh))
      ((fresh + 1) :: addrs) = some y :: ThirdRc.elemsAt H addrs := by
  have hlt : ∀ b ∈ addrs, b < fresh := thirdrc_chainb_lt_fresh addrs H base fresh hch hfr
  obtain ⟨a1agree, a1chain, a1fresh, a1cons, a1fr, a1rc, a1rcbase, a1un⟩ :=
    thirdrc_prependH_spec H fresh base addrs x hch hfr hrc
  obtain ⟨a2agree, a2chain, a2fresh, a2cons, a2fr, a2rc, a2rcbase, a2un⟩ :=
    thirdrc_prependH_spec (ThirdRc.prependH H fresh base x).1 (fresh + 1) base addrs y
      a1chain a1fr a1rc
  have hbase_ne : ∀ a0, base = some a0 → fresh ≠ a0 := by
    intro a0 hb
    subst hb
    obtain ⟨rest, hEq⟩ := thirdrc_chainb_some_cons H a0 addrs hch
    have hmem : a0 ∈ addrs := by rw [hEq]; exact List.mem_cons_self a0 rest
    have := hlt a0 hmem
    omega
  have h3 : (ThirdRc.prependH (ThirdRc.prependH H fresh base x).1 (fresh + 1)
      base y).1 fresh = some ⟨x, base, 1⟩ := by
    rw [a2un fresh (by omega) hbase_ne]
    exact a1fresh
  have h6 : ThirdRc.elemsAt
      (ThirdRc.prependH (ThirdRc.prependH H fresh base x).1 (fresh + 1) base y).1
      addrs = ThirdRc.elemsAt H addrs := by
    rw [thirdrc_elemsAt_en addrs _ _ a2agree, thirdrc_elemsAt_en addrs _ _ a1agree]
  have h7 : ∀ a0, base = some a0 →
      ThirdRc.rcOf (ThirdRc.prependH (ThirdRc.prependH H fresh base x).1 (fresh + 1)
        base y).1 a0 = ThirdRc.rcOf H a0 + 2 := by
    intro a0 hb
    rw [a2rcbase a0 hb, a1rcbase a0 hb]
  have hagreeA : ∀ c ∈ fresh :: addrs,
      ThirdRc.en ((ThirdRc.prependH (ThirdRc.prependH H fresh base x).1 (fresh + 1)
        base y).1 c) = ThirdRc.en ((ThirdRc.prependH H fresh base x).1 c) := by
    intro c hc
    rcases List.mem_cons.mp hc with rfl | hc2
    · rw [a2un c (by omega) hbase_ne]
    · exact a2agree c hc2
  have h8 : ThirdRc.chainb
      (ThirdRc.prependH (ThirdRc.prependH H fresh base x).1 (fresh + 1) base y).1
      (some fresh) (fresh :: addrs) = true :=
    thirdrc_chainb_en (fresh :: addrs) _ _ (some fresh) hagreeA a1cons
  have h9 : ThirdRc.elemsAt
      (ThirdRc.prependH (ThirdRc.prependH H fresh base x).1 (fresh + 1) base y).1
      (fresh :: addrs) = some x :: ThirdRc.elemsAt H addrs := by
    rw [thirdrc_elemsAt_cons, h3, h6]
    simp
  have h11 : ThirdRc.elemsAt
      (ThirdRc.prependH (ThirdRc.prependH H fresh base x).1 (fresh + 1) base y).1
      ((fresh + 1) :: addrs) = some y :: ThirdRc.elemsAt H addrs := by
    rw [thirdrc_elemsAt_cons, a2fresh, h6]
    simp
  have hBbase : ∀ a0, base = some a0 → ∃ n,
      (ThirdRc.prependH (ThirdRc.prependH H fresh base x).1 (fresh + 1) base y).1 a0 =
        some n ∧ 2 ≤ n.rc := by
    intro a0 hb
    have hmem : a0 ∈ addrs := by
      subst hb
      obtain ⟨rest, hEq⟩ := thirdrc_chainb_some_cons H a0 addrs hch
      rw [hEq]; exact List.mem_cons_self a0 rest
    have halloc := thirdrc_chainb_alloc addrs _ base a2chain a0 hmem
    cases ha : (ThirdRc.prependH (ThirdRc.prependH H fresh base x).1 (fresh + 1)
        base y).1 a0 with
    | none => exact absurd ha halloc
    | some n =>
        refine ⟨n, rfl, ?_⟩
        have hr := h7 a0 hb
        simp [ThirdRc.rcOf, ha] at hr
        omega
  have hdropen : ∀ c, c ≠ fresh →
      ThirdRc.en (ThirdRc.dropRun fuel
        (ThirdRc.prependH (ThirdRc.prependH H fresh base x).1 (fresh + 1) base y).1
        (some fresh) c) =
      ThirdRc.en ((ThirdRc.prependH (ThirdRc.prependH H fresh base x).1 (fresh + 1)
        base y).1 c) :=
    thirdrc_drop_fresh_en _ fresh x base fuel h3 hBbase hfuel
  have hagreeB : ∀ c ∈ (fresh + 1) :: addrs,
      ThirdRc.en (ThirdRc.dropRun fuel
        (ThirdRc.prependH (ThirdRc.prependH H fresh base x).1 (fresh + 1) base y).1
        (some fresh) c) =
      ThirdRc.en ((ThirdRc.prependH (ThirdRc.prependH H fresh base x).1 (fresh + 1)
        base y).1 c) := by
    intro c hc
    rcases List.mem_cons.mp hc with rfl | hc2
    · exact hdropen (fresh + 1) (by omega)
    · exact hdropen c (by have := hlt c hc2; omega)
  have h12 : ThirdRc.chainb
      (ThirdRc.dropRun fuel
        (ThirdRc.prependH (ThirdRc.prependH H fresh base x).1 (fresh + 1) base y).1
        (some fresh))
      (some (fresh + 1)) ((fresh + 1) :: addrs) = true :=
    thirdrc_chainb_en ((fresh + 1) :: addrs) _ _ (some (fresh + 1)) hagreeB a2cons
  have h13 : ThirdRc.elemsAt
      (ThirdRc.dropRun fuel
        (ThirdRc.prependH (ThirdRc.prependH H fresh base x).1 (fresh + 1) base y).1
        (some fresh))
      ((fresh + 1) :: addrs) = some y :: ThirdRc.elemsAt H addrs := by
    rw [thirdrc_elemsAt_en ((fresh + 1) :: addrs) _ _ hagreeB]
    exact h11
  exact ⟨rfl, rfl, h3, a2fresh, a2chain, h6, h7, h8, h9, a2cons, h11, h12, h13⟩

/-- Witness for `prepend_independent_siblings`: on `exHeap` with base chain
0 → 1 → 2, prepending 100 (list a, at address 3) and 200 (list b, at
address 4), then dropping a. -/
theorem prepend_independent_siblings_witness :
    (ThirdRc.chainb ThirdRc.exHeap (some 0) [0, 1, 2] = true) ∧
    (∀ c, 3 ≤ c → ThirdRc.exHeap c = none) ∧
    (∀ b ∈ ([0, 1, 2] : Vals Nat), 1 ≤ ThirdRc.rcOf ThirdRc.exHeap b) ∧
    (2 ≤ 2) ∧
    ((ThirdRc.prepTwo ThirdRc.exHeap 3 (some 0) (100 : Int) 200).2.1 = some 3 ∧
      (ThirdRc.prepTwo ThirdRc.exHeap 3 (some 0) (100 : Int) 200).2.2 = some (3 + 1) ∧
      (ThirdRc.prepTwo ThirdRc.exHeap 3 (some 0) (100 : Int) 200).1 3 =
        some ⟨100, some 0, 1⟩ ∧
      (ThirdRc.prepTwo ThirdRc.exHeap 3 (some 0) (100 : Int) 200).1 (3 + 1) =
        some ⟨200, some 0, 1⟩ ∧
      ThirdRc.chainb (ThirdRc.prepTwo ThirdRc.exHeap 3 (some 0) (100 : Int) 200).1
        (some 0) [0, 1, 2] = true ∧
      ThirdRc.elemsAt (ThirdRc.prepTwo ThirdRc.exHeap 3 (some 0) (100 : Int) 200).1
        [0, 1, 2] = ThirdRc.elemsAt ThirdRc.exHeap [0, 1, 2] ∧
      (∀ a0, (some 0 : Option Nat) = some a0 →
        ThirdRc.rcOf (ThirdRc.prepTwo ThirdRc.exHeap 3 (some 0) (100 : Int) 200).1 a0 =
          ThirdRc.rcOf ThirdRc.exHeap a0 + 2) ∧
      ThirdRc.chainb (ThirdRc.prepTwo ThirdRc.exHeap 3 (some 0) (100 : Int) 200).1
        (some 3) (3 :: [0, 1, 2]) = true ∧
      ThirdRc.elemsAt (ThirdRc.prepTwo ThirdRc.exHeap 3 (some 0) (100 : Int) 200).1
        (3 :: [0, 1, 2]) = some 100 :: ThirdRc.elemsAt ThirdRc.exHeap [0, 1, 2] ∧
      ThirdRc.chainb (ThirdRc.prepTwo ThirdRc.exHeap 3 (some 0) (100 : Int) 200).1
        (some (3 + 1)) ((3 + 1) :: [0, 1, 2]) = true ∧
      ThirdRc.elemsAt (ThirdRc.prepTwo ThirdRc.exHeap 3 (some 0) (100 : Int) 200).1
        ((3 + 1) :: [0, 1, 2]) = some 200 :: ThirdRc.elemsAt ThirdRc.exHeap [0, 1, 2] ∧
      ThirdRc.chainb
        (ThirdRc.dropRun 2
          (ThirdRc.prepTwo ThirdRc.exHeap 3 (some 0) (100 : Int) 200).1 (some 3))
        (some (3 + 1)) ((3 + 1) :: [0, 1, 2]) = true ∧
      ThirdRc.elemsAt
        (ThirdRc.dropRun 2
          (ThirdRc.prepTwo ThirdRc.exHeap 3 (some 0) (100 : Int) 200).1 (some 3))
        ((3 + 1) :: [0, 1, 2]) = some 200 :: ThirdRc.elemsAt ThirdRc.exHeap [0, 1, 2]) :=
  ⟨by decide,
   fun c hc => by
     simp only [ThirdRc.exHeap]
     rw [if_neg (by omega), if_neg (by omega), if_neg (by omega)],
   by decide, by decide,
   prepend_independent_siblings ThirdRc.exHeap 3 (some 0) [0, 1, 2] 100 200 2
     (by decide)
     (fun c hc => by
       simp only [ThirdRc.exHeap]
       rw [if_neg (by omega), if_neg (by omega), if_neg (by omega)])
     (by decide) (by decide)⟩
